import Mathlib

/-!
Shallow embedding of the bolt-db batching layer (`batching.go`, the
`BoltDatabase` CRUD wrapper) and theorems checking the specification's
claims against it.

Byte strings (`[]byte` in the source) are modelled as `String`; the
underlying bolt store is modelled as an association list from bucket
name to bucket content, itself an association list from key to value.
A bolt write transaction (`db.Batch(fn)`) commits the closure's updates
when `fn` returns nil and rolls the store back when `fn` returns an
error; bolt serializes write transactions, so a set of per-bucket
transactions is modelled as running in some sequential schedule order.
-/

namespace BoltFactory

/-- Kind of a write operation; `WriteOp = string` in the source. -/
abbrev WriteOp := String

/-- Constant `OpSet = "set"` from `batching.go`. -/
def OpSet : WriteOp := "set"

/-- Constant `OpDelete = "delete"` from `batching.go`. -/
def OpDelete : WriteOp := "delete"

/-- Constant `MAX_CONCURRENT_OPERATIONS = 10` from `batching.go`. -/
def MAX_CONCURRENT_OPERATIONS : Nat := 10

/-- Constant `MAX_SEQUENTIAL_OPERATIONS = 5_000` from `batching.go`. -/
def MAX_SEQUENTIAL_OPERATIONS : Nat := 5000

/-- Mirror of `WriteOperation`: bucket, key, optional value (`*[]byte`,
`none` models a nil pointer) and operation kind. -/
structure WriteOperation where
  bucket : String
  key : String
  value : Option String
  op : WriteOp
deriving DecidableEq, Repr

/-- Content of one bolt bucket: an association list from key to value,
first occurrence wins (bolt keys are unique). -/
abbrev BucketContent := List (String × String)

/-- The whole store: an association list from bucket name to content. -/
abbrev Store := List (String × BucketContent)

/-- Lookup of a key in a bucket (`bucket.Get`): `none` when absent. -/
def bcGet : BucketContent → String → Option String
  | [], _ => none
  | (k', v) :: rest, k => if k' = k then some v else bcGet rest k

/-- Mirror of `bucket.Put`: overwrite the key's binding, appending a new
binding when the key is absent. -/
def bcPut : BucketContent → String → String → BucketContent
  | [], k, v => [(k, v)]
  | (k', v') :: rest, k, v =>
    if k' = k then (k, v) :: rest else (k', v') :: bcPut rest k v

/-- Mirror of `bucket.Delete`: remove the key's binding; a no-op without
error when the key is absent. -/
def bcDelete : BucketContent → String → BucketContent
  | [], _ => []
  | (k', v') :: rest, k => if k' = k then rest else (k', v') :: bcDelete rest k

instance {ε α : Type} [DecidableEq ε] [DecidableEq α] : DecidableEq (Except ε α) := fun
  | Except.error e, Except.error e' =>
    if h : e = e' then isTrue (by rw [h]) else isFalse (by simp [h])
  | Except.error _, Except.ok _ => isFalse (by simp)
  | Except.ok _, Except.error _ => isFalse (by simp)
  | Except.ok a, Except.ok a' =>
    if h : a = a' then isTrue (by rw [h]) else isFalse (by simp [h])

/-- Lookup of a bucket in the store (`tx.Bucket`): `none` when absent. -/
def lookupBC : Store → String → Option BucketContent
  | [], _ => none
  | (b', bc) :: rest, b => if b' = b then some bc else lookupBC rest b

/-- Replace a bucket's content, creating the bucket when absent
(the committed effect of `tx.CreateBucketIfNotExists` plus updates). -/
def storeInsert : Store → String → BucketContent → Store
  | [], b, bc => [(b, bc)]
  | (b', bc') :: rest, b, bc =>
    if b' = b then (b, bc) :: rest else (b', bc') :: storeInsert rest b bc

/-- Mirror of the loop body of `execOpsByBucket` on one bucket's content.
Faithful to the source control flow: the loop `return`s on the first
operation whose kind matches `set` or `delete`, so at most one operation
takes effect per call; operations with any other kind are skipped. A
`set` with nil value returns the error `"value is nil"`. -/
def execOps (bc : BucketContent) : List WriteOperation → Except String BucketContent
  | [] => Except.ok bc
  | op :: rest =>
    if op.op = OpSet then
      match op.value with
      | none => Except.error "value is nil"
      | some v => Except.ok (bcPut bc op.key v)
    else if op.op = OpDelete then
      Except.ok (bcDelete bc op.key)
    else
      execOps bc rest

/-- Mirror of `execOpsByBucket` as a whole-store transaction body:
`CreateBucketIfNotExists` reads (or creates empty) the bucket's content,
then the operation loop runs on it; on success the store holds the new
content, on error the transaction is rolled back by the caller. -/
def execOpsByBucket (s : Store) (bucket : String) (ops : List WriteOperation) :
    Except String Store :=
  match execOps ((lookupBC s bucket).getD []) ops with
  | Except.error e => Except.error e
  | Except.ok bc' => Except.ok (storeInsert s bucket bc')

/-- Mirror of `BoltBatch`: the bucket-to-operations map, modelled as an
insertion-ordered association list with one entry per bucket. -/
structure BoltBatch where
  ops : List (String × List WriteOperation)
deriving DecidableEq, Repr

/-- Append an operation to its bucket's sequence, creating the bucket's
entry when absent (`b.ops[k] = append(b.ops[k], op)`). -/
def assocAppend : List (String × List WriteOperation) → String → WriteOperation →
    List (String × List WriteOperation)
  | [], b, op => [(b, [op])]
  | (b', l) :: rest, b, op =>
    if b' = b then (b', l ++ [op]) :: rest else (b', l) :: assocAppend rest b op

/-- Mirror of `BoltBatch.Add`: reject when the number of tracked buckets
has reached `MAX_SEQUENTIAL_OPERATIONS` (the guard reads `len(b.ops)`,
the map's key count), otherwise append the operation to its bucket.
Returns the error (if any) together with the batch after the call. -/
def Add (b : BoltBatch) (op : WriteOperation) : Option String × BoltBatch :=
  if MAX_SEQUENTIAL_OPERATIONS ≤ b.ops.length then
    (some "max sequential operations reached", b)
  else
    (none, BoltBatch.mk (assocAppend b.ops op.bucket op))

/-- Total number of queued operations across all buckets of a batch. -/
def totalOps (b : BoltBatch) : Nat := (b.ops.map (fun p => p.2.length)).sum

/-- Mirror of `BoltBatch.Execute` on an explicit partition list: one
`db.Batch` transaction per bucket, in order; the first failing
transaction rolls back (store unchanged) and aborts the remaining
partitions; returns the error (if any) and the resulting store. -/
def ExecuteL : List (String × List WriteOperation) → Store → Option String × Store
  | [], s => (none, s)
  | p :: rest, s =>
    match execOpsByBucket s p.1 p.2 with
    | Except.error e => (some e, s)
    | Except.ok s' => ExecuteL rest s'

/-- Mirror of `BoltBatch.ExecuteConcurrent`'s effect under a sequential
schedule of the per-bucket write transactions (bolt serializes writers):
every partition's transaction is attempted, a failing transaction rolls
back only its own bucket, and the first error in schedule order is
accumulated and returned after all partitions ran. -/
def concLoop : List (String × List WriteOperation) → Option String → Store →
    Option String × Store
  | [], errAcc, s => (errAcc, s)
  | p :: rest, errAcc, s =>
    match execOpsByBucket s p.1 p.2 with
    | Except.error e =>
      concLoop rest (match errAcc with | some e0 => some e0 | none => some e) s
    | Except.ok s' => concLoop rest errAcc s'

/-- Error component of a transaction result. -/
def errOf : Except String Store → Option String
  | Except.error e => some e
  | Except.ok _ => none

/-- Method form of `Execute`, threading the receiver explicitly: the
loop reads `b.ops` and never writes it, so the batch after the call is
returned alongside the result. -/
def execLoopM : List (String × List WriteOperation) → Store → BoltBatch →
    (Option String × Store) × BoltBatch
  | [], s, b => ((none, s), b)
  | p :: rest, s, b =>
    match execOpsByBucket s p.1 p.2 with
    | Except.error e => ((some e, s), b)
    | Except.ok s' => execLoopM rest s' b

/-- Mirror of the method `BoltBatch.Execute` with the receiver threaded. -/
def BoltBatch.Execute (b : BoltBatch) (s : Store) : (Option String × Store) × BoltBatch :=
  execLoopM b.ops s b

/-- Method form of `ExecuteConcurrent`, threading the receiver: the loop
reads `b.ops` and never writes it. -/
def concLoopM : List (String × List WriteOperation) → Option String → Store → BoltBatch →
    (Option String × Store) × BoltBatch
  | [], errAcc, s, b => ((errAcc, s), b)
  | p :: rest, errAcc, s, b =>
    match execOpsByBucket s p.1 p.2 with
    | Except.error e =>
      concLoopM rest (match errAcc with | some e0 => some e0 | none => some e) s b
    | Except.ok s' => concLoopM rest errAcc s' b

/-- Mirror of the method `BoltBatch.ExecuteConcurrent` with the receiver
threaded. -/
def BoltBatch.ExecuteConcurrent (b : BoltBatch) (s : Store) :
    (Option String × Store) × BoltBatch :=
  concLoopM b.ops none s b

/-- Mirror of `BoltDatabase.Get` from the CRUD wrapper: inside a read
transaction, a missing bucket leaves the result nil and returns nil
error; otherwise the result is `bucket.Get(key)` (nil when the key is
absent) and the error is nil. Result is `(value?, error?)`. -/
def BoltDatabase.Get (s : Store) (bucketName key : String) :
    Option String × Option String :=
  match lookupBC s bucketName with
  | none => (none, none)
  | some bc => (bcGet bc key, none)

/-! Concrete operations used by several concrete evaluations. -/

/-- Sample operation: Set `users/u1 = "A"`. -/
def opA : WriteOperation := WriteOperation.mk "users" "u1" (some "A") OpSet

/-- Sample operation: Set `users/u1 = "B"`. -/
def opB : WriteOperation := WriteOperation.mk "users" "u1" (some "B") OpSet

/-- Sample operation: Delete `users/u1`. -/
def opDelU1 : WriteOperation := WriteOperation.mk "users" "u1" none OpDelete

/-- C1: the claim says that after a successful Execute, a touched
partition's content equals the replay of all its operations in insertion
order (each Set overwrites, each Delete removes). Evaluating the code at
the failing input `users ↦ [Set u1 A, Set u1 B]` on the empty store:
Execute succeeds but leaves `u1 = "A"` — only the first operation was
applied, while the in-order replay (`bcPut` then `bcPut`) leaves
`u1 = "B"`. The loop in `execOpsByBucket` returns on its first matched
operation, contradicting its own documentation ("executes all
operations"), so the code, not the claim, is wrong. -/
theorem execute_applies_only_first_op_eval :
    ExecuteL [("users", [opA, opB])] [] = (none, [("users", [("u1", "A")])]) ∧
    bcPut (bcPut [] "u1" "A") "u1" "B" = [("u1", "B")] ∧
    ([("u1", "A")] : BucketContent) ≠ [("u1", "B")] := by
  decide

/-- C2 counterexample: the claim says only the last operation of a
partition is guaranteed to execute to completion. With the queue
`[Set u1 A, Set u1 B, Delete u1]` the last operation is the Delete; had
it executed, `u1` would be absent, yet the final store still binds
`u1 = "A"`: the first operation, not the last, is the one that executed. -/
theorem execute_last_op_lost_cex :
    ExecuteL [("users", [opA, opB, opDelU1])] [] =
      (none, [("users", [("u1", "A")])]) ∧
    bcGet [("u1", "A")] "u1" = some "A" ∧
    bcDelete [("u1", "A")] "u1" = [] := by
  decide

/-- C2 amended: within one partition's transaction closure only the
first operation with a recognized kind (set or delete) executes; the
loop returns immediately after it, so the result does not depend on the
remaining queued operations. -/
theorem execOps_returns_after_first_recognized (bc : BucketContent)
    (op : WriteOperation) (rest : List WriteOperation)
    (h : op.op = OpSet ∨ op.op = OpDelete) :
    execOps bc (op :: rest) = execOps bc [op] := by
  rcases h with h | h <;> simp [execOps, h, OpSet, OpDelete]

/-- Witness for `execOps_returns_after_first_recognized` at a delete
followed by a set. -/
theorem execOps_returns_after_first_recognized_witness :
    (opDelU1.op = OpSet ∨ opDelU1.op = OpDelete) ∧
    execOps [] [opDelU1, opA] = execOps [] [opDelU1] :=
  ⟨Or.inr rfl, execOps_returns_after_first_recognized [] opDelU1 [opA] (Or.inr rfl)⟩

/-- C4: when the number of buckets tracked by the batch has reached
`MAX_SEQUENTIAL_OPERATIONS`, `Add` returns the capacity error and leaves
the batch unchanged: nothing is appended and the operation count is the
same as before the rejected call. -/
theorem add_capacity_exceeded_rejects (b : BoltBatch) (op : WriteOperation)
    (h : MAX_SEQUENTIAL_OPERATIONS ≤ b.ops.length) :
    Add b op = (some "max sequential operations reached", b) ∧
    (Add b op).2 = b ∧
    totalOps (Add b op).2 = totalOps b := by
  simp [Add, h]

/-- Sample operation used to populate batches. -/
def op0 : WriteOperation := WriteOperation.mk "b" "k" (some "v") OpSet

/-- A batch tracking exactly `MAX_SEQUENTIAL_OPERATIONS` buckets. -/
def bigBatch : BoltBatch :=
  BoltBatch.mk ((List.range MAX_SEQUENTIAL_OPERATIONS).map (fun i => (toString i, [op0])))

/-- Witness for `add_capacity_exceeded_rejects` at a full batch. -/
theorem add_capacity_exceeded_rejects_witness :
    MAX_SEQUENTIAL_OPERATIONS ≤ bigBatch.ops.length ∧
    Add bigBatch op0 = (some "max sequential operations reached", bigBatch) :=
  ⟨by simp [bigBatch], (add_capacity_exceeded_rejects bigBatch op0 (by simp [bigBatch])).1⟩

/-- C7: an operation of kind Set with a nil value is accepted by `Add`
without error (the guard only looks at the bucket count) and is appended
to its bucket; the missing value surfaces only at execution, where the
transaction body returns the error `"value is nil"`, aborting that
partition's transaction (rollback: the store is left untouched for the
remaining partitions, which proceed exactly as they would alone, the
error being merely accumulated). -/
theorem set_nil_value_deferred_error (b : BoltBatch) (op : WriteOperation)
    (rest : List WriteOperation) (bkt : String)
    (l2 : List (String × List WriteOperation)) (s : Store)
    (hop : op.op = OpSet) (hval : op.value = none)
    (hcap : b.ops.length < MAX_SEQUENTIAL_OPERATIONS) :
    (Add b op).1 = none ∧
    (Add b op).2.ops = assocAppend b.ops op.bucket op ∧
    (∀ bc, execOps bc (op :: rest) = Except.error "value is nil") ∧
    execOpsByBucket s bkt (op :: rest) = Except.error "value is nil" ∧
    concLoop ((bkt, op :: rest) :: l2) none s = concLoop l2 (some "value is nil") s := by
  have hadd : ¬ MAX_SEQUENTIAL_OPERATIONS ≤ b.ops.length := not_le.mpr hcap
  refine ⟨by simp [Add, hadd], by simp [Add, hadd], fun bc => ?_, ?_, ?_⟩
  · simp [execOps, hop, hval]
  · simp [execOpsByBucket, execOps, hop, hval]
  · simp [concLoop, execOpsByBucket, execOps, hop, hval]

/-- Witness for `set_nil_value_deferred_error`: a nil-value Set on an
empty batch, executed alongside one healthy partition. -/
theorem set_nil_value_deferred_error_witness :
    (WriteOperation.mk "u" "k" none OpSet).op = OpSet ∧
    (WriteOperation.mk "u" "k" none OpSet).value = none ∧
    (BoltBatch.mk []).ops.length < MAX_SEQUENTIAL_OPERATIONS ∧
    (Add (BoltBatch.mk []) (WriteOperation.mk "u" "k" none OpSet)).1 = none ∧
    concLoop [("u", [WriteOperation.mk "u" "k" none OpSet]), ("w", [op0])] none [] =
      concLoop [("w", [op0])] (some "value is nil") [] :=
  ⟨rfl, rfl, by decide,
   (set_nil_value_deferred_error (BoltBatch.mk []) (WriteOperation.mk "u" "k" none OpSet)
      [] "u" [("w", [op0])] [] rfl rfl (by decide)).1,
   (set_nil_value_deferred_error (BoltBatch.mk []) (WriteOperation.mk "u" "k" none OpSet)
      [] "u" [("w", [op0])] [] rfl rfl (by decide)).2.2.2.2⟩

/-- C10: `BoltDatabase.Get` reports "not found" as a nil value with a
nil error, both when the bucket does not exist and when the key is
absent from an existing bucket. -/
theorem get_not_found_returns_nil_nil (s : Store) (bucketName key : String)
    (h : lookupBC s bucketName = none ∨
         ∀ bc, lookupBC s bucketName = some bc → bcGet bc key = none) :
    BoltDatabase.Get s bucketName key = (none, none) := by
  unfold BoltDatabase.Get
  cases hbc : lookupBC s bucketName with
  | none => rfl
  | some bc =>
    rcases h with h | h
    · exact absurd hbc (by simp [h])
    · simp [h bc hbc]

/-- Witness for `get_not_found_returns_nil_nil` at a missing bucket. -/
theorem get_not_found_returns_nil_nil_witness :
    lookupBC [("b", [("k", "v")])] "c" = none ∧
    BoltDatabase.Get [("b", [("k", "v")])] "c" "x" = (none, none) :=
  ⟨by decide,
   get_not_found_returns_nil_nil [("b", [("k", "v")])] "c" "x" (Or.inl (by decide))⟩

/-- Iterated `Add` of the same operation, stopping at the first error:
models a caller feeding `n` operations to one batch. -/
def addN (b : BoltBatch) (op : WriteOperation) : Nat → Option String × BoltBatch
  | 0 => (none, b)
  | n + 1 =>
    match Add b op with
    | (some e, b') => (some e, b')
    | (none, b') => addN b' op n

/-- Adding the same operation repeatedly to a batch tracking a single
bucket always succeeds: the guard only counts buckets. -/
theorem addN_single_bucket (op : WriteOperation) :
    ∀ (n : Nat) (l : List WriteOperation),
      addN (BoltBatch.mk [(op.bucket, l)]) op n =
        (none, BoltBatch.mk [(op.bucket, l ++ List.replicate n op)]) := by
  intro n
  induction n with
  | zero => intro l; simp [addN]
  | succ n ih =>
    intro l
    have h1 : addN (BoltBatch.mk [(op.bucket, l)]) op (n + 1) =
        addN (BoltBatch.mk [(op.bucket, l ++ [op])]) op n := by
      simp [addN, Add, assocAppend, MAX_SEQUENTIAL_OPERATIONS]
    rw [h1, ih (l ++ [op])]
    simp [List.replicate_succ, List.append_assoc]

/-- Feeding `n + 1` copies of an operation to the empty batch: the first
`Add` creates the bucket, the rest pile onto it without rejection. -/
theorem addN_from_empty (op : WriteOperation) (n : Nat) :
    addN (BoltBatch.mk []) op (n + 1) =
      (none, BoltBatch.mk [(op.bucket, op :: List.replicate n op)]) := by
  have h1 : addN (BoltBatch.mk []) op (n + 1) =
      addN (BoltBatch.mk [(op.bucket, [op])]) op n := by
    simp [addN, Add, assocAppend, MAX_SEQUENTIAL_OPERATIONS]
  rw [h1, addN_single_bucket op n [op]]
  simp

/-- C3 counterexample: `MAX_SEQUENTIAL_OPERATIONS + 1 = 5001` successive
`Add` calls targeting one bucket are all accepted (no rejection at
Add-time), and the reached batch holds 5001 queued operations in total,
exceeding the sequential-capacity limit: the guard counts buckets, not
operations. -/
theorem add_total_ops_unbounded_cex :
    addN (BoltBatch.mk []) op0 (MAX_SEQUENTIAL_OPERATIONS + 1) =
      (none, BoltBatch.mk [("b", List.replicate (MAX_SEQUENTIAL_OPERATIONS + 1) op0)]) ∧
    totalOps (BoltBatch.mk [("b", List.replicate (MAX_SEQUENTIAL_OPERATIONS + 1) op0)]) =
      MAX_SEQUENTIAL_OPERATIONS + 1 ∧
    MAX_SEQUENTIAL_OPERATIONS < MAX_SEQUENTIAL_OPERATIONS + 1 := by
  refine ⟨?_, by simp [totalOps], by omega⟩
  rw [addN_from_empty op0 MAX_SEQUENTIAL_OPERATIONS]
  simp [op0, List.replicate_succ]

/-- Length of the bucket map grows by at most one per append. -/
theorem assocAppend_length (l : List (String × List WriteOperation)) (k : String)
    (op : WriteOperation) : (assocAppend l k op).length ≤ l.length + 1 := by
  induction l with
  | nil => simp [assocAppend]
  | cons p rest ih =>
    obtain ⟨b', lops⟩ := p
    by_cases h : b' = k
    · simp only [assocAppend, if_pos h, List.length_cons]
      omega
    · simp only [assocAppend, if_neg h, List.length_cons]
      omega

/-- C3 amended: the quantity the guard actually bounds is the number of
buckets (partitions) tracked by the batch, not the total operation
count: in every reachable state the bucket count stays at most
`MAX_SEQUENTIAL_OPERATIONS`, and once it has reached the limit every
further `Add` is rejected at Add-time with the capacity error. -/
theorem add_partition_count_bound (b : BoltBatch) (op : WriteOperation)
    (hb : b.ops.length ≤ MAX_SEQUENTIAL_OPERATIONS) :
    (Add b op).2.ops.length ≤ MAX_SEQUENTIAL_OPERATIONS ∧
    (MAX_SEQUENTIAL_OPERATIONS ≤ b.ops.length →
      Add b op = (some "max sequential operations reached", b)) := by
  by_cases h : MAX_SEQUENTIAL_OPERATIONS ≤ b.ops.length
  · simp [Add, h, hb]
  · refine ⟨?_, fun hc => absurd hc h⟩
    simp only [Add, if_neg h]
    have h1 : (assocAppend b.ops op.bucket op).length ≤ b.ops.length + 1 :=
      assocAppend_length b.ops op.bucket op
    have h2 : b.ops.length + 1 ≤ MAX_SEQUENTIAL_OPERATIONS :=
      Nat.succ_le_of_lt (Nat.lt_of_not_le h)
    exact le_trans h1 h2

/-- Witness for `add_partition_count_bound` at the empty batch. -/
theorem add_partition_count_bound_witness :
    (BoltBatch.mk []).ops.length ≤ MAX_SEQUENTIAL_OPERATIONS ∧
    (Add (BoltBatch.mk []) op0).2.ops.length ≤ MAX_SEQUENTIAL_OPERATIONS :=
  ⟨by decide, (add_partition_count_bound (BoltBatch.mk []) op0 (by decide)).1⟩

/-- C5: the sequential `Execute` processes partitions one at a time;
when the first `k` partitions' transactions succeed and partition `k`'s
transaction fails with error `e`, the call returns `e` immediately and
the store is exactly the one left by the committed prefix: partition `k`
is rolled back and every partition after `k` is untouched. -/
theorem execute_sequential_fail_fast (l : List (String × List WriteOperation))
    (s : Store) (k : Nat) (e : String) (hk : k < l.length)
    (hpre : (ExecuteL (l.take k) s).1 = none)
    (hfail : execOpsByBucket (ExecuteL (l.take k) s).2 (l.get ⟨k, hk⟩).1
      (l.get ⟨k, hk⟩).2 = Except.error e) :
    ExecuteL l s = (some e, (ExecuteL (l.take k) s).2) := by
  induction l generalizing s k with
  | nil => exact absurd hk (by simp)
  | cons p rest ih =>
    cases k with
    | zero =>
      simp only [List.take_zero, ExecuteL, List.get] at hpre hfail ⊢
      rw [hfail]
    | succ k' =>
      have hk' : k' < rest.length := Nat.lt_of_succ_lt_succ hk
      simp only [List.take_succ_cons, List.get] at hpre hfail ⊢
      cases h1 : execOpsByBucket s p.1 p.2 with
      | error e0 => simp [ExecuteL, h1] at hpre
      | ok s' =>
        simp only [ExecuteL, h1] at hpre hfail ⊢
        exact ih s' k' hk' hpre hfail

/-- Witness for `execute_sequential_fail_fast`: two partitions, the
first healthy, the second failing on a nil-value Set. -/
theorem execute_sequential_fail_fast_witness :
    (1 < ([("a", [op0]), ("u", [WriteOperation.mk "u" "k" none OpSet])] :
        List (String × List WriteOperation)).length) ∧
    ExecuteL [("a", [op0]), ("u", [WriteOperation.mk "u" "k" none OpSet])] [] =
      (some "value is nil",
       (ExecuteL (List.take 1 [("a", [op0]), ("u", [WriteOperation.mk "u" "k" none OpSet])]) []).2) :=
  ⟨by decide,
   execute_sequential_fail_fast
     [("a", [op0]), ("u", [WriteOperation.mk "u" "k" none OpSet])] [] 1 "value is nil"
     (by decide) (by decide) (by decide)⟩

/-- The sequential method loop never writes the receiver's map. -/
theorem execLoopM_batch_eq (l : List (String × List WriteOperation)) (s : Store)
    (b : BoltBatch) : (execLoopM l s b).2 = b := by
  induction l generalizing s with
  | nil => rfl
  | cons p rest ih =>
    simp only [execLoopM]
    cases execOpsByBucket s p.1 p.2 with
    | error e => rfl
    | ok s' => exact ih s'

/-- The concurrent method loop never writes the receiver's map. -/
theorem concLoopM_batch_eq (l : List (String × List WriteOperation))
    (errAcc : Option String) (s : Store) (b : BoltBatch) :
    (concLoopM l errAcc s b).2 = b := by
  induction l generalizing errAcc s with
  | nil => rfl
  | cons p rest ih =>
    simp only [concLoopM]
    cases execOpsByBucket s p.1 p.2 with
    | error e => exact ih _ s
    | ok s' => exact ih errAcc s'

/-- C9: neither `Execute` nor `ExecuteConcurrent` removes or modifies
the batch's queued operations: the batch coming out of either call is
the batch that went in, whatever the outcome, so a second invocation on
the same batch replays exactly the same queued operations (it behaves as
the original batch would on the new store). -/
theorem execute_preserves_batch_ops (b : BoltBatch) (s t : Store) :
    (b.Execute s).2 = b ∧ (b.ExecuteConcurrent s).2 = b ∧
    (b.Execute s).2.Execute t = b.Execute t ∧
    (b.ExecuteConcurrent s).2.ExecuteConcurrent t = b.ExecuteConcurrent t := by
  have h1 : (b.Execute s).2 = b := execLoopM_batch_eq b.ops s b
  have h2 : (b.ExecuteConcurrent s).2 = b := concLoopM_batch_eq b.ops none s b
  exact ⟨h1, h2, by rw [h1], by rw [h2]⟩

/-- Replacing one bucket's content changes the lookup at that bucket and
nothing else. -/
theorem lookupBC_storeInsert (s : Store) (b b' : String) (bc : BucketContent) :
    lookupBC (storeInsert s b bc) b' = if b = b' then some bc else lookupBC s b' := by
  induction s with
  | nil =>
    by_cases h : b = b' <;> simp [storeInsert, lookupBC, h]
  | cons p rest ih =>
    obtain ⟨k, v⟩ := p
    by_cases hk : k = b
    · subst hk
      by_cases h : k = b' <;> simp [storeInsert, lookupBC, h]
    · by_cases h1 : k = b'
      · subst h1
        have h2 : ¬ b = k := fun h => hk h.symm
        simp [storeInsert, lookupBC, hk, h2]
      · simp [storeInsert, lookupBC, hk, h1, ih]

/-- Inversion of a successful per-bucket transaction: it is the
operation replay on the bucket's content followed by writing the new
content back. -/
theorem execOpsByBucket_ok (s : Store) (b : String) (ops : List WriteOperation)
    (s' : Store) (h : execOpsByBucket s b ops = Except.ok s') :
    ∃ bc', execOps ((lookupBC s b).getD []) ops = Except.ok bc' ∧
      s' = storeInsert s b bc' := by
  unfold execOpsByBucket at h
  cases h2 : execOps ((lookupBC s b).getD []) ops with
  | error e => rw [h2] at h; exact absurd h (by simp)
  | ok bc' =>
    rw [h2] at h
    simp only [Except.ok.injEq] at h
    exact ⟨bc', rfl, h.symm⟩

/-- Buckets not named in the partition list are untouched by the
concurrent loop. -/
theorem concLoop_lookup_frame (l : List (String × List WriteOperation))
    (errAcc : Option String) (s : Store) (b : String)
    (hb : b ∉ l.map Prod.fst) :
    lookupBC (concLoop l errAcc s).2 b = lookupBC s b := by
  induction l generalizing errAcc s with
  | nil => rfl
  | cons p rest ih =>
    have hb1 : ¬ p.1 = b := by
      intro h; exact hb (by simp [h])
    have hb2 : b ∉ rest.map Prod.fst := by
      intro h; exact hb (by simp [h])
    simp only [concLoop]
    cases h1 : execOpsByBucket s p.1 p.2 with
    | error e => exact ih _ s hb2
    | ok s' =>
      obtain ⟨bc', _, hs'⟩ := execOpsByBucket_ok s p.1 p.2 s' h1
      rw [ih errAcc s' hb2, hs', lookupBC_storeInsert, if_neg hb1]

/-- Once an error has been accumulated, the concurrent loop keeps
returning that first error whatever happens later. -/
theorem concLoop_fst_some (l : List (String × List WriteOperation)) :
    ∀ (e0 : String) (s : Store), (concLoop l (some e0) s).1 = some e0 := by
  induction l with
  | nil => intro e0 s; rfl
  | cons p rest ih =>
    intro e0 s
    simp only [concLoop]
    cases execOpsByBucket s p.1 p.2 with
    | error e => exact ih e0 s
    | ok s' => exact ih e0 s'

/-- The store produced by the concurrent loop does not depend on the
accumulated error. -/
theorem concLoop_snd_errAcc (l : List (String × List WriteOperation)) :
    ∀ (a b : Option String) (s : Store),
      (concLoop l a s).2 = (concLoop l b s).2 := by
  induction l with
  | nil => intro a b s; rfl
  | cons p rest ih =>
    intro a b s
    simp only [concLoop]
    cases execOpsByBucket s p.1 p.2 with
    | error e => exact ih _ _ s
    | ok s' => exact ih a b s'

/-- Main behaviour of the concurrent loop, relative to the initial store
`s0`: provided the partitions name pairwise-distinct buckets and the
working store agrees with `s0` on every listed bucket, the returned
error is the first among all partitions' transactions (each judged
against `s0`), and every partition whose replay succeeds ends up
committed in the final store, regardless of failures elsewhere. -/
theorem concLoop_spec (l : List (String × List WriteOperation)) (s0 : Store) :
    ∀ (s : Store),
      (l.map Prod.fst).Nodup →
      (∀ p ∈ l, lookupBC s p.1 = lookupBC s0 p.1) →
      ((concLoop l none s).1 =
        (l.filterMap (fun p => errOf (execOpsByBucket s0 p.1 p.2))).head?) ∧
      (∀ p ∈ l, ∀ bc', execOps ((lookupBC s0 p.1).getD []) p.2 = Except.ok bc' →
        lookupBC (concLoop l none s).2 p.1 = some bc') := by
  induction l with
  | nil =>
    intro s _ _
    exact ⟨rfl, by simp⟩
  | cons p rest ih =>
    intro s hnd hagree
    have hl : lookupBC s p.1 = lookupBC s0 p.1 := hagree p (List.mem_cons_self p rest)
    have hnd1 : p.1 ∉ rest.map Prod.fst := by
      simp only [List.map_cons, List.nodup_cons] at hnd
      exact hnd.1
    have hnd2 : (rest.map Prod.fst).Nodup := by
      simp only [List.map_cons, List.nodup_cons] at hnd
      exact hnd.2
    have hagree' : ∀ q ∈ rest, lookupBC s q.1 = lookupBC s0 q.1 :=
      fun q hq => hagree q (List.mem_cons_of_mem p hq)
    cases h2 : execOps ((lookupBC s0 p.1).getD []) p.2 with
    | error e =>
      have h3 : execOpsByBucket s p.1 p.2 = Except.error e := by
        simp [execOpsByBucket, hl, h2]
      have h4 : errOf (execOpsByBucket s0 p.1 p.2) = some e := by
        simp [execOpsByBucket, h2, errOf]
      have hstep : concLoop (p :: rest) none s = concLoop rest (some e) s := by
        simp [concLoop, h3]
      refine ⟨?_, ?_⟩
      · rw [hstep, concLoop_fst_some rest e s]
        simp [h4]
      · intro q hq bc' hbc'
        rcases List.mem_cons.mp hq with hq1 | hq2
        · subst hq1
          rw [hbc'] at h2
          exact absurd h2 (by simp)
        · rw [hstep, concLoop_snd_errAcc rest (some e) none s]
          exact (ih s hnd2 hagree').2 q hq2 bc' hbc'
    | ok bc0 =>
      have h3 : execOpsByBucket s p.1 p.2 = Except.ok (storeInsert s p.1 bc0) := by
        simp [execOpsByBucket, hl, h2]
      have h4 : errOf (execOpsByBucket s0 p.1 p.2) = none := by
        simp [execOpsByBucket, h2, errOf]
      have hagree2 : ∀ q ∈ rest, lookupBC (storeInsert s p.1 bc0) q.1 = lookupBC s0 q.1 := by
        intro q hq
        have hne : ¬ p.1 = q.1 := by
          intro h
          exact hnd1 (by simpa [h] using List.mem_map_of_mem Prod.fst hq)
        rw [lookupBC_storeInsert, if_neg hne]
        exact hagree q (List.mem_cons_of_mem p hq)
      have hrec := ih (storeInsert s p.1 bc0) hnd2 hagree2
      have hstep : concLoop (p :: rest) none s =
          concLoop rest none (storeInsert s p.1 bc0) := by
        simp [concLoop, h3]
      refine ⟨?_, ?_⟩
      · rw [hstep, hrec.1]
        simp [h4]
      · intro q hq bc' hbc'
        rcases List.mem_cons.mp hq with hq1 | hq2
        · subst hq1
          rw [hbc'] at h2
          simp only [Except.ok.injEq] at h2
          subst h2
          rw [hstep, concLoop_lookup_frame rest none _ q.1 hnd1,
            lookupBC_storeInsert, if_pos rfl]
        · rw [hstep]
          exact hrec.2 q hq2 bc' hbc'

/-- The method wrapper's result component equals the schedule loop's. -/
theorem concLoopM_fst (l : List (String × List WriteOperation)) :
    ∀ (a : Option String) (s : Store) (b : BoltBatch),
      (concLoopM l a s b).1 = concLoop l a s := by
  induction l with
  | nil => intro a s b; rfl
  | cons p rest ih =>
    intro a s b
    simp only [concLoopM, concLoop]
    cases execOpsByBucket s p.1 p.2 with
    | error e => exact ih _ s b
    | ok s' => exact ih a s' b

/-- C6: `ExecuteConcurrent` attempts every partition's transaction
regardless of failures elsewhere: the returned error is the first error
among all partition transactions (so it is `none` exactly when every
partition succeeded), and every partition whose replay succeeds is
committed in the final store even when another partition fails. The
schedule order of the serialized write transactions is the list order;
waiting for all tasks is modelled by the loop consuming the whole list. -/
theorem executeConcurrent_attempts_all (l : List (String × List WriteOperation))
    (s : Store) (hnd : (l.map Prod.fst).Nodup) :
    ((BoltBatch.mk l).ExecuteConcurrent s).1 = concLoop l none s ∧
    (concLoop l none s).1 =
      (l.filterMap (fun p => errOf (execOpsByBucket s p.1 p.2))).head? ∧
    ((concLoop l none s).1 = none ↔
      ∀ p ∈ l, errOf (execOpsByBucket s p.1 p.2) = none) ∧
    (∀ p ∈ l, ∀ bc', execOps ((lookupBC s p.1).getD []) p.2 = Except.ok bc' →
      lookupBC (concLoop l none s).2 p.1 = some bc') := by
  have h := concLoop_spec l s s hnd (fun p _ => rfl)
  refine ⟨concLoopM_fst l none s (BoltBatch.mk l), h.1, ?_, h.2⟩
  rw [h.1]
  constructor
  · intro hh
    have h5 : l.filterMap (fun p => errOf (execOpsByBucket s p.1 p.2)) = [] :=
      List.head?_eq_none_iff.mp hh
    exact List.filterMap_eq_nil_iff.mp h5
  · intro hall
    have h5 : l.filterMap (fun p => errOf (execOpsByBucket s p.1 p.2)) = [] :=
      List.filterMap_eq_nil_iff.mpr hall
    rw [h5]
    rfl

/-- Partition list used by the concurrent-execution witness: a healthy
partition followed by one failing on a nil-value Set. -/
def wlist : List (String × List WriteOperation) :=
  [("a", [op0]), ("u", [WriteOperation.mk "u" "k" none OpSet])]

/-- Witness for `executeConcurrent_attempts_all`: the failing partition
yields the returned error, yet the healthy partition's Set commits. -/
theorem executeConcurrent_attempts_all_witness :
    (wlist.map Prod.fst).Nodup ∧
    (concLoop wlist none []).1 = some "value is nil" ∧
    lookupBC (concLoop wlist none []).2 "a" = some [("k", "v")] := by
  refine ⟨by decide, ?_, ?_⟩
  · have h := executeConcurrent_attempts_all wlist [] (by decide)
    rw [h.2.1]
    decide
  · have h := executeConcurrent_attempts_all wlist [] (by decide)
    exact h.2.2.2 ("a", [op0]) (by decide) [("k", "v")] (by decide)

/-- Phase of one partition-level task in `ExecuteConcurrent`: `waiting`
while the semaphore send blocks, `running` from slot acquisition until
the transaction finished, `done` after the deferred receive released the
slot — release happens whatever the transaction outcome was. -/
inductive TaskPhase where
  | waiting
  | running
  | done
deriving DecidableEq, Repr

/-- Number of tasks currently holding a semaphore slot. -/
def inFlight (ph : List TaskPhase) : Nat :=
  ph.countP (fun t => decide (t = TaskPhase.running))

/-- Capacity of the admission channel created by `ExecuteConcurrent` for
`n` partitions: the source allocates a buffered channel of size
`min(MAX_CONCURRENT_OPERATIONS, len(b.ops))`. -/
def semCap (n : Nat) : Nat := min MAX_CONCURRENT_OPERATIONS n

/-- Interleaving semantics of the bounded admission channel: a waiting
task may acquire a slot only while fewer than `cap` slots are taken; a
running task eventually releases its slot, regardless of outcome. -/
inductive SemStep (cap : Nat) : List TaskPhase → List TaskPhase → Prop where
  | acquire (ph : List TaskPhase) (i : Nat) (hi : i < ph.length)
      (hw : ph.get ⟨i, hi⟩ = TaskPhase.waiting)
      (hcap : inFlight ph < cap) :
      SemStep cap ph (ph.set i TaskPhase.running)
  | release (ph : List TaskPhase) (i : Nat) (hi : i < ph.length)
      (hr : ph.get ⟨i, hi⟩ = TaskPhase.running) :
      SemStep cap ph (ph.set i TaskPhase.done)

/-- States reachable by the `n` spawned partition tasks, starting from
all of them waiting on the admission channel. -/
def SemReachable (n : Nat) (ph : List TaskPhase) : Prop :=
  Relation.ReflTransGen (SemStep (semCap n)) (List.replicate n TaskPhase.waiting) ph

/-- Acquiring a slot increments the in-flight count by exactly one. -/
theorem inFlight_set_running (l : List TaskPhase) :
    ∀ (i : Nat) (hi : i < l.length), l.get ⟨i, hi⟩ = TaskPhase.waiting →
      inFlight (l.set i TaskPhase.running) = inFlight l + 1 := by
  induction l with
  | nil => intro i hi; exact absurd hi (by simp)
  | cons a t ih =>
    intro i hi hw
    cases i with
    | zero =>
      simp only [List.get] at hw
      subst hw
      simp [inFlight, List.countP_cons]
    | succ j =>
      have hj : j < t.length := Nat.lt_of_succ_lt_succ hi
      have h := ih j hj hw
      simp only [List.set, inFlight, List.countP_cons] at *
      omega

/-- Releasing a slot decrements the in-flight count by exactly one. -/
theorem inFlight_set_done (l : List TaskPhase) :
    ∀ (i : Nat) (hi : i < l.length), l.get ⟨i, hi⟩ = TaskPhase.running →
      inFlight (l.set i TaskPhase.done) + 1 = inFlight l := by
  induction l with
  | nil => intro i hi; exact absurd hi (by simp)
  | cons a t ih =>
    intro i hi hr
    cases i with
    | zero =>
      simp only [List.get] at hr
      subst hr
      simp [inFlight, List.countP_cons]
    | succ j =>
      have hj : j < t.length := Nat.lt_of_succ_lt_succ hi
      have h := ih j hj hr
      simp only [List.set, inFlight, List.countP_cons] at *
      omega

/-- Before any task starts, no slot is held. -/
theorem inFlight_replicate_waiting (n : Nat) :
    inFlight (List.replicate n TaskPhase.waiting) = 0 := by
  induction n with
  | zero => rfl
  | succ k ih => simp [List.replicate_succ, inFlight, List.countP_cons, ih]

/-- C8: in every state the admission channel can reach, at most
`min(MAX_CONCURRENT_OPERATIONS, n)` partition transactions are in
flight: a task holds a slot for the whole lifetime of its transaction
and the bounded channel admits a waiting task only below capacity. -/
theorem semaphore_bounds_in_flight (n : Nat) (ph : List TaskPhase)
    (h : SemReachable n ph) : inFlight ph ≤ semCap n := by
  unfold SemReachable at h
  induction h with
  | refl => rw [inFlight_replicate_waiting]; exact Nat.zero_le _
  | tail hsteps hstep ih =>
    cases hstep with
    | acquire i hi hw hcap =>
      rw [inFlight_set_running _ i hi hw]
      omega
    | release i hi hr =>
      have h2 := inFlight_set_done _ i hi hr
      omega

/-- Witness for `semaphore_bounds_in_flight`: three tasks, one of which
has acquired a slot. -/
theorem semaphore_bounds_in_flight_witness :
    SemReachable 3 ((List.replicate 3 TaskPhase.waiting).set 0 TaskPhase.running) ∧
    inFlight ((List.replicate 3 TaskPhase.waiting).set 0 TaskPhase.running) ≤ semCap 3 := by
  have hstep : SemStep (semCap 3) (List.replicate 3 TaskPhase.waiting)
      ((List.replicate 3 TaskPhase.waiting).set 0 TaskPhase.running) :=
    SemStep.acquire (List.replicate 3 TaskPhase.waiting) 0 (by decide) (by decide) (by decide)
  have hreach : SemReachable 3 ((List.replicate 3 TaskPhase.waiting).set 0 TaskPhase.running) :=
    Relation.ReflTransGen.tail Relation.ReflTransGen.refl hstep
  exact ⟨hreach, semaphore_bounds_in_flight 3 _ hreach⟩

end BoltFactory
